import Mathlib

/-!
Shallow embedding of the Bananagrams solver from
`src/backend/solver/solver.h` (classes `WordUtil`, `Hand`, `Board`).

Letters (`wchar_t`) are modelled as `Char`, wide strings as `List Char`.
Grid cells (`std::wstring`, empty or a single letter) are `Option Char`.
The `std::unordered_map` of anagram groups is modelled as an association
list in insertion order; its C++ iteration order is implementation
defined, so the insertion order here stands in for one concrete order.
The C++ expression `(int)word.find(c)` truncates `std::wstring::npos`
to `-1` on the target platforms; `wfindInt` reproduces that.
-/

namespace Bananagrams

abbrev Word := List Char

/-- Model of utils::sort, one insertion step: std::sort puts the letters
into ascending order (same resulting sequence). -/
def insertSorted (c : Char) : List Char → List Char
  | [] => [c]
  | d :: ds => if c ≤ d then c :: d :: ds else d :: insertSorted c ds

/-- Model of utils::sort on a word: ascending letter order. -/
def sortLetters (w : Word) : Word := w.foldr insertSorted []

/-- Model of std::wstring::find for a single character: index of the
first occurrence. -/
def wfind (c : Char) : List Char → Option Nat
  | [] => none
  | d :: rest => if d = c then some 0 else (wfind c rest).map (· + 1)

/-- The value of the C++ expression (int)str.find(c): npos truncates
to -1 on the target. -/
def wfindInt (w : Word) (c : Char) : Int :=
  match wfind c w with
  | some i => (i : Int)
  | none => -1

-- ============================================================================
-- WordUtil
-- ============================================================================

/-- State of WordUtil: word list, anagram index (association list, insertion
order) and longest word length.  The letter-frequency table computed by
the constructor is never read by the solver and is omitted. -/
structure WordUtil where
  words : List Word
  anagrams : List (Word × List Word)
  longestWordLength : Nat
deriving Repr, DecidableEq

/-- Access anagrams[key] followed by an in-place update of the list:
updates the entry with key `k` (appending a fresh entry holding `f []`
when the key is absent, as `operator[]` default-constructs it). -/
def anagramsUpdate (k : Word) (f : List Word → List Word) :
    List (Word × List Word) → List (Word × List Word)
  | [] => [(k, f [])]
  | (k', v) :: rest =>
      if k' = k then (k', f v) :: rest else (k', v) :: anagramsUpdate k f rest

/-- Lookup of an anagram group; absent keys read as the empty group. -/
def anagramsGet (m : List (Word × List Word)) (k : Word) : List Word :=
  match m with
  | [] => []
  | (k', v) :: rest => if k' = k then v else anagramsGet rest k

/-- One line of the `WordUtil` constructor loop body: strip trailing
whitespace, skip blank lines, update `longest_word_length`, append to
`words` and to the anagram group of the sorted key. -/
def wordUtilStep (wu : WordUtil) (line : Word) : WordUtil :=
  let line := (line.reverse.dropWhile Char.isWhitespace).reverse
  if line = [] then wu
  else
    { words := wu.words ++ [line]
      anagrams := anagramsUpdate (sortLetters line) (· ++ [line]) wu.anagrams
      longestWordLength :=
        if line.length > wu.longestWordLength then line.length
        else wu.longestWordLength }

/-- The `WordUtil` constructor over the lines of the word-list file. -/
def buildWordUtil (lines : List Word) : WordUtil :=
  lines.foldl wordUtilStep { words := [], anagrams := [], longestWordLength := 1 }

/-- The can_make_word inner loop of `getWordWithLength`: every letter
of `word` occurs in `word` at most as often as in `hand`. -/
def canMake (word hand : Word) : Bool :=
  word.all (fun c => word.count c ≤ hand.count c)

/-- Scan of one anagram group in order: first word of the requested
length that the hand can make. -/
def searchGroup (hand : Word) (len : Nat) : List Word → Option Word
  | [] => none
  | w :: ws =>
      if w.length ≠ len then searchGroup hand len ws
      else if canMake w hand then some w
      else searchGroup hand len ws

/-- Scan of the anagram groups in order. -/
def searchGroups (hand : Word) (len : Nat) : List (Word × List Word) → Option Word
  | [] => none
  | (_, g) :: rest =>
      match searchGroup hand len g with
      | some w => some w
      | none => searchGroups hand len rest

/-- Model of WordUtil::getWordWithLength (the empty string result
becomes none). -/
def getWordWithLength (wu : WordUtil) (hand : Word) (len : Nat) : Option Word :=
  searchGroups hand len wu.anagrams

-- ============================================================================
-- Hand
-- ============================================================================

/-- The Hand constructor: case-fold the tiles to lowercase. -/
def mkHand (tiles : List Char) : List Char := tiles.map Char.toLower

/-- Model of Hand::removeWordFromTiles: for each letter of `word` in order,
erase its first occurrence from the tiles if present (`find` + `erase`
is exactly `List.erase`). -/
def removeWordFromTiles (tiles : List Char) (word : Word) : List Char :=
  word.foldl (fun t c => t.erase c) tiles

-- ============================================================================
-- Board
-- ============================================================================

/-- The grid: rows of cells, a cell being empty or one letter. -/
abbrev Grid := List (List (Option Char))

/-- Read grid[y][x] (out of range reads as empty; every access the
C++ performs is guarded in range). -/
def gridGet (g : Grid) (y x : Int) : Option Char :=
  if y < 0 ∨ x < 0 then none
  else ((g.getD y.toNat []).getD x.toNat none)

/-- Write the assignment grid[y][x] = c. -/
def gridSet (g : Grid) (y x : Int) (c : Char) : Grid :=
  if y < 0 ∨ x < 0 then g
  else g.set y.toNat ((g.getD y.toNat []).set x.toNat (some c))

/-- Occupancy test of a cell (the C++ negation of empty()). -/
def occupied (g : Grid) (y x : Int) : Bool := (gridGet g y x).isSome

/-- State of Board: grid, hand tiles, word util, grid size, duplicate flag and
the undo log of removed words. -/
structure Board where
  grid : Grid
  hand : List Char
  wordUtil : WordUtil
  maxGridSize : Nat
  acceptDuplicates : Bool
  removedWords : List Word
deriving Repr, DecidableEq

/-- Horizontal loop of Board::insertWord over the letters, tracking
the scratch grid `new_grid`; a failed check returns the scratch as it
stood (the caller discards it). -/
def insertLoopH (M : Int) (seed : Int × Int) (y : Int) :
    List Char → Int → Grid → Bool × Grid
  | [], _, g => (true, g)
  | c :: rest, xi, g =>
      if xi < 0 ∨ xi ≥ M ∨ y < 1 ∨ y ≥ M - 1 then (false, g)
      else if xi = seed.1 ∧ y = seed.2 then
        if xi + 1 < M ∧ occupied g y (xi + 1) then (false, g)
        else insertLoopH M seed y rest (xi + 1) g
      else if occupied g y xi then (false, g)
      else
        let g' := gridSet g y xi c
        if occupied g' (y - 1) xi ∨ occupied g' (y + 1) xi then (false, g')
        else insertLoopH M seed y rest (xi + 1) g'

/-- Vertical loop of Board::insertWord; arguments y0 and wlen are the fixed
start row and word length used by the run-end check. -/
def insertLoopV (M : Int) (seed : Int × Int) (x y0 wlen : Int) :
    List Char → Int → Grid → Bool × Grid
  | [], _, g => (true, g)
  | c :: rest, yi, g =>
      if yi < 1 ∨ yi ≥ M - 1 ∨ x < 1 ∨ x ≥ M - 1 then (false, g)
      else if x = seed.1 ∧ yi = seed.2 then
        if yi + 1 < M ∧ occupied g (yi + 1) x then (false, g)
        else insertLoopV M seed x y0 wlen rest (yi + 1) g
      else if occupied g yi x then (false, g)
      else
        let g' := gridSet g yi x c
        if occupied g' (y0 - 1) x ∨
            (y0 + wlen + 1 < M ∧ occupied g' (y0 + wlen + 1) x) then (false, g')
        else if occupied g' yi (x - 1) then (false, g')
        else if occupied g' yi (x + 1) ∧ ¬occupied g' yi (x - 1) ∧
            (x + 2 < M ∧ ¬occupied g' yi (x + 2)) then (false, g')
        else insertLoopV M seed x y0 wlen rest (yi + 1) g'

/-- The validation pass of Board::insertWord on the scratch copy
new_grid of the grid. -/
def insertScratch (b : Board) (word : Word) (x y : Int) (isHorizontal : Bool)
    (seed : Int × Int) : Bool × Grid :=
  if isHorizontal then insertLoopH (b.maxGridSize : Int) seed y word x b.grid
  else insertLoopV (b.maxGridSize : Int) seed x y (word.length : Int) word y b.grid

/-- Model of Board::insertWord: validate and write on a scratch copy of the
grid; commit it only on full success. -/
def insertWord (b : Board) (word : Word) (x y : Int) (isHorizontal : Bool)
    (seed : Int × Int) : Bool × Board :=
  match insertScratch b word x y isHorizontal seed with
  | (true, g') => (true, { b with grid := g' })
  | (false, _) => (false, b)

/-- Model of Board::removeWordFromWordlist: the erase–remove idiom deletes
every entry equal to `word` from `words` and from its anagram group,
then logs the word for restoration. -/
def removeWordFromWordlist (b : Board) (word : Word) : Board :=
  if b.acceptDuplicates then b
  else
    { b with
      wordUtil :=
        { b.wordUtil with
          words := b.wordUtil.words.filter (· ≠ word)
          anagrams :=
            anagramsUpdate (sortLetters word) (·.filter (· ≠ word))
              b.wordUtil.anagrams }
      removedWords := b.removedWords ++ [word] }

/-- Cell scan of Board::findSpotForWord over row-major coordinates. -/
def findSpotScan (word : Word) (seed : Char) :
    List (Nat × Nat) → Board → Bool × Board
  | [], b => (false, b)
  | (row, col) :: rest, b =>
      match gridGet b.grid (row : Int) (col : Int) with
      | none => findSpotScan word seed rest b
      | some ch =>
          if seed ≠ ch then findSpotScan word seed rest b
          else
            let vy : Int := (row : Int) - wfindInt word seed
            match insertWord b word (col : Int) vy false ((col : Int), (row : Int)) with
            | (true, b') => (true, removeWordFromWordlist b' word)
            | (false, b') =>
                let hx : Int := (col : Int) - wfindInt word seed
                match insertWord b' word hx (row : Int) true ((col : Int), (row : Int)) with
                | (true, b'') => (true, removeWordFromWordlist b'' word)
                | (false, b'') => findSpotScan word seed rest b''

/-- Row-major coordinates of the grid. -/
def gridCoords (g : Grid) : List (Nat × Nat) :=
  ((List.range g.length).map fun r =>
    (List.range ((g.getD r []).length)).map fun c => (r, c)).flatten

/-- Model of Board::findSpotForWord. -/
def findSpotForWord (b : Board) (word : Word) (seed : Char) : Bool × Board :=
  if seed = ' ' then (false, b)
  else if b.acceptDuplicates = false ∧ word ∉ b.wordUtil.words then (false, b)
  else findSpotScan word seed (gridCoords b.grid) b

/-- Restoration of one removed word (the reset loop body): append to
`words` and to its anagram group. -/
def restoreWord (wu : WordUtil) (w : Word) : WordUtil :=
  { wu with
    words := wu.words ++ [w]
    anagrams := anagramsUpdate (sortLetters w) (· ++ [w]) wu.anagrams }

/-- Model of Board::reset: recompute the grid size from the hand, clear the
grid, restore the undo log into the word util. -/
def reset (b : Board) : Board :=
  let M := if b.hand.length * 2 < 10 then 10 else b.hand.length * 2
  { b with
    maxGridSize := M
    grid := List.replicate M (List.replicate M (none : Option Char))
    wordUtil := b.removedWords.foldl restoreWord b.wordUtil
    removedWords := [] }

/-- Model of Board::getTiles: the non-empty cells in row-major order. -/
def getTiles (b : Board) : List Char :=
  (b.grid.map (·.filterMap id)).flatten

/-- Model of Board::placeFirstWord. -/
def placeFirstWord (b : Board) (len : Nat) : Bool × Board :=
  match getWordWithLength b.wordUtil b.hand len with
  | none => (false, b)
  | some w =>
      let x : Int := (b.maxGridSize : Int) / 2 - (w.length : Int) / 2
      let y : Int := (b.maxGridSize : Int) / 2
      match insertWord b w x y true (-1, -1) with
      | (false, b') => (false, b')
      | (true, b') =>
          let b'' := removeWordFromWordlist b' w
          (true, { b'' with hand := removeWordFromTiles b''.hand w })

-- ============================================================================
-- Solver driver
-- ============================================================================

/-- Descending candidate lengths from top down to 2. -/
def lensDown (top : Nat) : List Nat := (List.range' 2 (top - 1)).reverse

/-- Inner tile loop of Board::solver for one word length, over the
snapshot of the board letters; rec is the recursive solver call. -/
def tileLoop (rec : Board → Bool × Board) (wl : Nat) :
    List Char → Board → Bool × Board
  | [], b => (false, b)
  | t :: ts, b =>
      match getWordWithLength b.wordUtil (b.hand ++ [t]) wl with
      | none => tileLoop rec wl ts b
      | some w =>
          match findSpotForWord b w t with
          | (false, b₁) => tileLoop rec wl ts b₁
          | (true, b₁) =>
              match wfind t w with
              | none => tileLoop rec wl ts b₁
              | some tp =>
                  let b₂ := { b₁ with hand := removeWordFromTiles b₁.hand (w.eraseIdx tp) }
                  match rec b₂ with
                  | (true, b₃) => (true, b₃)
                  | (false, b₃) =>
                      if b₃.hand = [] then (true, b₃) else tileLoop rec wl ts b₃

/-- Word-length loop of Board::solver; the board letters are
re-read at the head of each length iteration. -/
def lenLoop (rec : Board → Bool × Board) : List Nat → Board → Bool × Board
  | [], b => (false, b)
  | wl :: rest, b =>
      match tileLoop rec wl (getTiles b) b with
      | (true, b') => (true, b')
      | (false, b') => lenLoop rec rest b'

/-- Model of Board::solver with explicit recursion fuel; the C++ recursion
depth is bounded by the hand size, so any fuel exceeding it yields the
function the C++ computes (`solverFuel_irrelevant`). -/
def solverF : Nat → Board → Bool × Board
  | 0, b => (false, b)
  | n + 1, b => lenLoop (solverF n) (lensDown (b.hand.length + 1)) b

/-- Loop body of Board::startSolver over first-word lengths. -/
def startLoop (original : List Char) : List Nat → Board → Bool × Board
  | [], b => (false, b)
  | fwl :: rest, b =>
      let b₀ := reset { b with hand := original }
      match placeFirstWord b₀ fwl with
      | (false, b₁) => startLoop original rest b₁
      | (true, b₁) =>
          match solverF (b₁.hand.length + 1) b₁ with
          | (true, b₂) => (true, b₂)
          | (false, b₂) =>
              if b₂.hand = [] then (true, b₂) else startLoop original rest b₂

/-- Model of Board::startSolver. -/
def startSolver (b : Board) : Bool × Board :=
  if b.hand.length > 144 then (false, b)
  else
    let top :=
      if b.hand.length > b.wordUtil.longestWordLength then b.wordUtil.longestWordLength
      else b.hand.length
    startLoop b.hand (lensDown top) b

/-- The request path of main.cpp: construct the board from the shared
word util, set the (lower-cased) hand, reset, then solve. -/
def mkBoard (lines : List Word) (tiles : List Char) : Board :=
  reset
    { grid := []
      hand := mkHand tiles
      wordUtil := buildWordUtil lines
      maxGridSize := 0
      acceptDuplicates := false
      removedWords := [] }

/-- Run the whole pipeline on a dictionary and a hand. -/
def solve (lines : List Word) (tiles : List Char) : Bool × Board :=
  startSolver (mkBoard lines tiles)

-- ============================================================================
-- Maximal runs of a grid (for the solution-validity property)
-- ============================================================================

/-- Split one line of cells into its maximal runs of consecutive
occupied cells (acc holds the current run reversed). -/
def splitRuns (acc : List Char) : List (Option Char) → List Word
  | [] => if acc = [] then [] else [acc.reverse]
  | some c :: rest => splitRuns (c :: acc) rest
  | none :: rest =>
      if acc = [] then splitRuns [] rest else acc.reverse :: splitRuns [] rest

/-- Maximal runs of one row. -/
def rowRuns (row : List (Option Char)) : List Word := splitRuns [] row

/-- Columns of the grid as rows. -/
def transposeGrid (g : Grid) : Grid :=
  (List.range (g.headD []).length).map fun c => g.map fun row => row.getD c none

/-- All maximal horizontal and vertical runs of length ≥ 2. -/
def gridRuns (g : Grid) : List Word :=
  ((g.map rowRuns).flatten ++ ((transposeGrid g).map rowRuns).flatten).filter
    fun w => 2 ≤ w.length

-- ============================================================================
-- Claim theorems: solution validity and letter conservation (C1, C2)
-- ============================================================================

/-- C1: the claim fails on the code.  On the dictionary
[ca, at, ab] and the hand tabc, startSolver succeeds, yet the
resulting grid contains the maximal horizontal run cab, which is not a
word of the loaded dictionary: the horizontal insertion path never
checks the cells before the word's start or after its end, so the word
ab placed through the seed letter a fuses with the already placed ca. -/
theorem solve_success_with_nonword_run :
    (solve (["ca", "at", "ab"].map String.toList) "tabc".toList).1 = true ∧
    "cab".toList ∈
      gridRuns (solve (["ca", "at", "ab"].map String.toList) "tabc".toList).2.grid ∧
    "cab".toList ∉ (buildWordUtil (["ca", "at", "ab"].map String.toList)).words := by
  decide

/-- C2: the claim fails on the code.  On the dictionary
[bbc, cc, tb, tc] and the hand ccctb, startSolver succeeds, yet the
letters on the grid plus the letters left in the hand contain the
letter t twice while the input hand contains it once: when the solver
places a word whose letters do not include the crossing tile (reachable
because (int)npos is -1), it skips the hand consumption step entirely,
inventing letters. -/
theorem solve_success_inventing_letters :
    (solve (["bbc", "cc", "tb", "tc"].map String.toList) "ccctb".toList).1 = true ∧
    ((getTiles (solve (["bbc", "cc", "tb", "tc"].map String.toList) "ccctb".toList).2) ++
        (solve (["bbc", "cc", "tb", "tc"].map String.toList) "ccctb".toList).2.hand).count 't' = 2 ∧
    (mkHand "ccctb".toList).count 't' = 1 := by
  decide

-- ============================================================================
-- Claim theorems: insert failure frame property (C3)
-- ============================================================================

/-- C3: if insertWord reports failure, the committed grid is exactly
the grid that existed before the call; all writes happened on the
scratch copy, which is discarded. -/
theorem insertWord_failure_leaves_grid (b : Board) (w : Word) (x y : Int)
    (o : Bool) (s : Int × Int) (h : (insertWord b w x y o s).1 = false) :
    ((insertWord b w x y o s).2).grid = b.grid := by
  unfold insertWord at h ⊢
  rcases hs : insertScratch b w x y o s with ⟨ok, g⟩
  rw [hs] at h
  cases ok
  · rfl
  · simp at h

/-- Witness for the insert failure frame property at a concrete failing
insertion (row 0 is rejected). -/
theorem insertWord_failure_leaves_grid_witness :
    (insertWord (mkBoard [] "aaaa".toList) "ab".toList 3 0 true (-1, -1)).1 = false ∧
    ((insertWord (mkBoard [] "aaaa".toList) "ab".toList 3 0 true (-1, -1)).2).grid =
      (mkBoard [] "aaaa".toList).grid :=
  ⟨by decide, insertWord_failure_leaves_grid _ _ _ _ _ _ (by decide)⟩

-- ============================================================================
-- Claim theorems: margin bounds (C4)
-- ============================================================================

/-- C4 counterexample: the claim as stated is false.  A horizontal
insertion whose first target cell lies in column 0 (inside the claimed
one-cell margin) succeeds, and its letter is written into column 0:
the horizontal path only bounds the column by the addressable range. -/
theorem insertWord_margin_column_zero_success :
    (insertWord (mkBoard [] "aaaa".toList) "ab".toList 0 2 true (-1, -1)).1 = true ∧
    gridGet ((insertWord (mkBoard [] "aaaa".toList) "ab".toList 0 2 true (-1, -1)).2).grid
      2 0 = some 'a' := by
  decide

/-- Bounds extracted from a successful horizontal insertion loop: the
row stays off the margin rows, the columns stay in the addressable
range (column 0 and the last column included). -/
theorem insertLoopH_true_bounds (M : Int) (s : Int × Int) (y : Int) :
    ∀ (w : List Char) (xi : Int) (g : Grid), w ≠ [] →
      (insertLoopH M s y w xi g).1 = true →
      1 ≤ y ∧ y ≤ M - 2 ∧ 0 ≤ xi ∧ xi + w.length ≤ M := by
  intro w
  induction w with
  | nil => intro xi g hne _; exact absurd rfl hne
  | cons c rest ih =>
    intro xi g _ h
    simp only [insertLoopH] at h
    split_ifs at h with h1 h2 h3 h4 h5 <;> try exact absurd h Bool.false_ne_true
    all_goals
      refine ⟨by omega, by omega, by omega, ?_⟩
    all_goals
      cases rest with
      | nil => simp only [List.length_cons, List.length_nil]; push_cast; omega
      | cons d ds =>
          have h9 := ih (xi + 1) _ (by simp) h
          simp only [List.length_cons] at h9 ⊢
          push_cast at h9 ⊢
          omega

/-- Bounds extracted from a successful vertical insertion loop: both
coordinates stay off the margin rows and columns. -/
theorem insertLoopV_true_bounds (M : Int) (s : Int × Int) (x y0 wlen : Int) :
    ∀ (w : List Char) (yi : Int) (g : Grid), w ≠ [] →
      (insertLoopV M s x y0 wlen w yi g).1 = true →
      1 ≤ x ∧ x ≤ M - 2 ∧ 1 ≤ yi ∧ yi + w.length ≤ M - 1 := by
  intro w
  induction w with
  | nil => intro yi g hne _; exact absurd rfl hne
  | cons c rest ih =>
    intro yi g _ h
    simp only [insertLoopV] at h
    split_ifs at h with h1 h2 h3 h4 h5 h6 h7 <;> try exact absurd h Bool.false_ne_true
    all_goals
      refine ⟨by omega, by omega, by omega, ?_⟩
    all_goals
      cases rest with
      | nil => simp only [List.length_cons, List.length_nil]; push_cast; omega
      | cons d ds =>
          have h9 := ih (yi + 1) _ (by simp) h
          simp only [List.length_cons] at h9 ⊢
          push_cast at h9 ⊢
          omega

/-- C4 amended: a successful placement keeps every letter off the top
and bottom margin rows in both orientations; the vertical orientation
also keeps off the margin columns, while a successful horizontal
placement may write into column 0 and the last column (the horizontal
path only bounds the column by the addressable range 0..M-1). -/
theorem insertWord_success_bounds (b : Board) (w : Word) (x y : Int)
    (o : Bool) (s : Int × Int) (hw : w ≠ [])
    (h : (insertWord b w x y o s).1 = true) :
    if o then
      1 ≤ y ∧ y ≤ (b.maxGridSize : Int) - 2 ∧ 0 ≤ x ∧
        x + w.length ≤ (b.maxGridSize : Int)
    else
      1 ≤ x ∧ x ≤ (b.maxGridSize : Int) - 2 ∧ 1 ≤ y ∧
        y + w.length ≤ (b.maxGridSize : Int) - 1 := by
  have hs : (insertScratch b w x y o s).1 = true := by
    unfold insertWord at h
    rcases hE : insertScratch b w x y o s with ⟨ok, g⟩
    rw [hE] at h
    cases ok
    · simp at h
    · rfl
  unfold insertScratch at hs
  cases o
  · simp only [Bool.false_eq_true, if_false] at hs ⊢
    exact insertLoopV_true_bounds _ _ _ _ _ _ _ _ hw hs
  · simp only [if_true] at hs ⊢
    exact insertLoopH_true_bounds _ _ _ _ _ _ hw hs

/-- Witness for the amended bounds at a concrete successful horizontal
insertion that writes into column 0. -/
theorem insertWord_success_bounds_witness :
    ("ab".toList ≠ [] ∧
      (insertWord (mkBoard [] "aaaa".toList) "ab".toList 0 2 true (-1, -1)).1 = true) ∧
    (1 ≤ (2 : Int) ∧ (2 : Int) ≤ ((mkBoard [] "aaaa".toList).maxGridSize : Int) - 2 ∧
      0 ≤ (0 : Int) ∧
      (0 : Int) + ("ab".toList.length : Int) ≤ ((mkBoard [] "aaaa".toList).maxGridSize : Int)) :=
  ⟨⟨by decide, by decide⟩, by
    have h := insertWord_success_bounds (mkBoard [] "aaaa".toList) "ab".toList 0 2
      true (-1, -1) (by decide) (by decide)
    simpa using h⟩

-- ============================================================================
-- Lexicon removal and restoration (C5, C6)
-- ============================================================================

/-- Reading the group just updated yields the updated list. -/
theorem anagramsGet_update_self (k : Word) (f : List Word → List Word) :
    ∀ m : List (Word × List Word),
      anagramsGet (anagramsUpdate k f m) k = f (anagramsGet m k) := by
  intro m
  induction m with
  | nil => simp [anagramsUpdate, anagramsGet]
  | cons p rest ih =>
      rcases p with ⟨k', v⟩
      by_cases hk : k' = k <;> simp [anagramsUpdate, anagramsGet, hk, ih]

/-- Updating one group leaves every other group unchanged. -/
theorem anagramsGet_update_other (k : Word) (f : List Word → List Word)
    (k₀ : Word) (hne : k₀ ≠ k) :
    ∀ m : List (Word × List Word),
      anagramsGet (anagramsUpdate k f m) k₀ = anagramsGet m k₀ := by
  intro m
  induction m with
  | nil =>
      simp only [anagramsUpdate, anagramsGet]
      rw [if_neg (Ne.symm hne)]
  | cons p rest ih =>
      rcases p with ⟨k', v⟩
      by_cases hk : k' = k
      · subst hk
        simp only [anagramsUpdate, if_pos rfl, anagramsGet]
        rw [if_neg (Ne.symm hne), if_neg (Ne.symm hne)]
      · simp only [anagramsUpdate, if_neg hk, anagramsGet]
        by_cases hk0 : k' = k₀
        · rw [if_pos hk0, if_pos hk0]
        · rw [if_neg hk0, if_neg hk0]
          exact ih

/-- Occurrence counts after the erase–remove idiom. -/
theorem count_filter_ne (w : Word) : ∀ (l : List Word) (v : Word),
    (l.filter (fun u => u ≠ w)).count v = if v = w then 0 else l.count v := by
  intro l v
  by_cases hv : v = w
  · subst hv
    rw [if_pos rfl, List.count_eq_zero]
    intro hm
    have hp := (List.mem_filter.1 hm).2
    simp at hp
  · rw [if_neg hv]
    exact List.count_filter (by simp [hv])

/-- C5 counterexample: the claim as stated is false.  On a dictionary
holding the word ab twice, removal deletes both copies from the word
list and from the anagram group; the later duplicate entry is not
retained (the erase–remove idiom removes every matching entry). -/
theorem removeWordFromWordlist_duplicates_counterexample :
    (mkBoard (["ab", "ab"].map String.toList) "ab".toList).wordUtil.words =
      ["ab".toList, "ab".toList] ∧
    (removeWordFromWordlist (mkBoard (["ab", "ab"].map String.toList) "ab".toList)
        "ab".toList).wordUtil.words = [] ∧
    anagramsGet (removeWordFromWordlist (mkBoard (["ab", "ab"].map String.toList)
        "ab".toList) "ab".toList).wordUtil.anagrams (sortLetters "ab".toList) = [] := by
  decide

/-- C5 amended: when duplicates are not permitted, remove deletes every
matching entry of the word from the word list and from its anagram
group (counts of every other word and every other group are kept). -/
theorem removeWordFromWordlist_removes_every_copy (b : Board) (w : Word)
    (hdup : b.acceptDuplicates = false) :
    (∀ v, (removeWordFromWordlist b w).wordUtil.words.count v
        = if v = w then 0 else b.wordUtil.words.count v) ∧
    (∀ v, (anagramsGet (removeWordFromWordlist b w).wordUtil.anagrams
          (sortLetters w)).count v
        = if v = w then 0
          else (anagramsGet b.wordUtil.anagrams (sortLetters w)).count v) ∧
    (∀ k, k ≠ sortLetters w →
        anagramsGet (removeWordFromWordlist b w).wordUtil.anagrams k
          = anagramsGet b.wordUtil.anagrams k) := by
  unfold removeWordFromWordlist
  rw [hdup]
  simp only [Bool.false_eq_true, if_false]
  refine ⟨fun v => count_filter_ne w _ v, fun v => ?_, fun k hk => ?_⟩
  · rw [anagramsGet_update_self]
    exact count_filter_ne w _ v
  · exact anagramsGet_update_other _ _ _ hk _

/-- Witness for the amended removal claim on a one-entry dictionary. -/
theorem removeWordFromWordlist_removes_every_copy_witness :
    (mkBoard (["ab"].map String.toList) "ab".toList).acceptDuplicates = false ∧
    (removeWordFromWordlist (mkBoard (["ab"].map String.toList) "ab".toList)
        "ab".toList).wordUtil.words.count "ab".toList
      = if "ab".toList = "ab".toList then 0
        else (mkBoard (["ab"].map String.toList) "ab".toList).wordUtil.words.count
          "ab".toList :=
  ⟨by decide,
    (removeWordFromWordlist_removes_every_copy _ "ab".toList (by decide)).1 _⟩

/-- C6 counterexample: the claim as stated is false.  On a dictionary
holding the word ab twice, remove deletes both copies but the undo-log
replay re-inserts only one, so the word list is not restored as a
multiset. -/
theorem remove_restore_duplicates_counterexample :
    (mkBoard (["ab", "ab"].map String.toList) "ab".toList).wordUtil.words.count
        "ab".toList = 2 ∧
    (restoreWord (removeWordFromWordlist
        (mkBoard (["ab", "ab"].map String.toList) "ab".toList)
        "ab".toList).wordUtil "ab".toList).words.count "ab".toList = 1 := by
  decide

/-- C6 amended: when duplicates are not permitted and the word occurs
exactly once in the word list and once in its anagram group, remove
followed by the undo-log restore returns the word list and every
anagram group to multiset-equivalent states. -/
theorem remove_then_restore_preserves_counts (b : Board) (w : Word)
    (hdup : b.acceptDuplicates = false)
    (h1 : b.wordUtil.words.count w = 1)
    (h2 : (anagramsGet b.wordUtil.anagrams (sortLetters w)).count w = 1) :
    (∀ v, (restoreWord (removeWordFromWordlist b w).wordUtil w).words.count v
        = b.wordUtil.words.count v) ∧
    (∀ k v,
      (anagramsGet (restoreWord (removeWordFromWordlist b w).wordUtil w).anagrams
          k).count v
        = (anagramsGet b.wordUtil.anagrams k).count v) := by
  have hrem := removeWordFromWordlist_removes_every_copy b w hdup
  constructor
  · intro v
    have : (restoreWord (removeWordFromWordlist b w).wordUtil w).words
        = (removeWordFromWordlist b w).wordUtil.words ++ [w] := rfl
    rw [this, List.count_append, hrem.1 v]
    by_cases hv : v = w
    · subst hv; simp [h1]
    · simp [hv]
  · intro k v
    have hres : (restoreWord (removeWordFromWordlist b w).wordUtil w).anagrams
        = anagramsUpdate (sortLetters w) (· ++ [w])
            (removeWordFromWordlist b w).wordUtil.anagrams := rfl
    by_cases hk : k = sortLetters w
    · subst hk
      rw [hres, anagramsGet_update_self, List.count_append, hrem.2.1 v]
      by_cases hv : v = w
      · subst hv; simp [h2]
      · simp [hv]
    · rw [hres, anagramsGet_update_other _ _ _ hk, hrem.2.2 k hk]

/-- Witness for the amended remove-restore claim on a one-entry
dictionary. -/
theorem remove_then_restore_preserves_counts_witness :
    ((mkBoard (["ab"].map String.toList) "ab".toList).acceptDuplicates = false ∧
      (mkBoard (["ab"].map String.toList) "ab".toList).wordUtil.words.count
        "ab".toList = 1 ∧
      (anagramsGet (mkBoard (["ab"].map String.toList) "ab".toList).wordUtil.anagrams
        (sortLetters "ab".toList)).count "ab".toList = 1) ∧
    (restoreWord (removeWordFromWordlist (mkBoard (["ab"].map String.toList)
        "ab".toList) "ab".toList).wordUtil "ab".toList).words.count "ab".toList
      = (mkBoard (["ab"].map String.toList) "ab".toList).wordUtil.words.count
        "ab".toList :=
  ⟨⟨by decide, by decide, by decide⟩,
    (remove_then_restore_preserves_counts _ "ab".toList (by decide) (by decide)
      (by decide)).1 _⟩

-- ============================================================================
-- Word lookup specification (C7)
-- ============================================================================

/-- The can_make_word check holds exactly when every letter count of
the word is bounded by the hand's count. -/
theorem canMake_iff (w hand : Word) :
    canMake w hand = true ↔ ∀ c, w.count c ≤ hand.count c := by
  unfold canMake
  rw [List.all_eq_true]
  constructor
  · intro h c
    by_cases hc : c ∈ w
    · exact of_decide_eq_true (h c hc)
    · rw [List.count_eq_zero_of_not_mem hc]
      exact Nat.zero_le _
  · intro h c _
    exact decide_eq_true (h c)

/-- Soundness of the group scan: a returned word belongs to the group,
has the requested length and is makeable from the hand. -/
theorem searchGroup_eq_some (hand : Word) (len : Nat) :
    ∀ (g : List Word) (w : Word), searchGroup hand len g = some w →
      w ∈ g ∧ w.length = len ∧ canMake w hand = true := by
  intro g
  induction g with
  | nil => intro w h; simp [searchGroup] at h
  | cons a g ih =>
      intro w h
      simp only [searchGroup] at h
      split_ifs at h with h1 h2
      · obtain ⟨hm, hl, hc⟩ := ih w h
        exact ⟨List.mem_cons_of_mem _ hm, hl, hc⟩
      · cases h
        exact ⟨List.mem_cons_self _ _, of_not_not h1, h2⟩
      · obtain ⟨hm, hl, hc⟩ := ih w h
        exact ⟨List.mem_cons_of_mem _ hm, hl, hc⟩

/-- Completeness of the group scan: it fails exactly when no word of
the group qualifies. -/
theorem searchGroup_eq_none (hand : Word) (len : Nat) :
    ∀ g : List Word, searchGroup hand len g = none ↔
      ∀ w ∈ g, ¬(w.length = len ∧ canMake w hand = true) := by
  intro g
  induction g with
  | nil => simp [searchGroup]
  | cons a g ih =>
      simp only [searchGroup]
      split_ifs with h1 h2
      · rw [ih]
        constructor
        · intro h w hw
          rcases List.mem_cons.1 hw with rfl | hw'
          · rintro ⟨hl, -⟩; exact h1 hl
          · exact h w hw'
        · intro h w hw
          exact h w (List.mem_cons_of_mem _ hw)
      · apply iff_of_false
        · simp
        · intro hall
          exact hall a (List.mem_cons_self _ _) ⟨of_not_not h1, h2⟩
      · rw [ih]
        constructor
        · intro h w hw
          rcases List.mem_cons.1 hw with rfl | hw'
          · rintro ⟨-, hc⟩; exact h2 hc
          · exact h w hw'
        · intro h w hw
          exact h w (List.mem_cons_of_mem _ hw)

/-- Soundness of the scan over the anagram groups. -/
theorem searchGroups_eq_some (hand : Word) (len : Nat) :
    ∀ (m : List (Word × List Word)) (w : Word), searchGroups hand len m = some w →
      (∃ p ∈ m, w ∈ p.2) ∧ w.length = len ∧ canMake w hand = true := by
  intro m
  induction m with
  | nil => intro w h; simp [searchGroups] at h
  | cons p rest ih =>
      intro w h
      rcases p with ⟨k, g⟩
      simp only [searchGroups] at h
      cases hg : searchGroup hand len g with
      | some w' =>
          rw [hg] at h
          cases h
          obtain ⟨hm, hl, hc⟩ := searchGroup_eq_some hand len g w hg
          exact ⟨⟨(k, g), List.mem_cons_self _ _, hm⟩, hl, hc⟩
      | none =>
          rw [hg] at h
          obtain ⟨⟨q, hq, hw⟩, hl, hc⟩ := ih w h
          exact ⟨⟨q, List.mem_cons_of_mem _ hq, hw⟩, hl, hc⟩

/-- Completeness of the scan over the anagram groups. -/
theorem searchGroups_eq_none (hand : Word) (len : Nat) :
    ∀ m : List (Word × List Word), searchGroups hand len m = none ↔
      ∀ p ∈ m, ∀ w ∈ p.2, ¬(w.length = len ∧ canMake w hand = true) := by
  intro m
  induction m with
  | nil => simp [searchGroups]
  | cons p rest ih =>
      rcases p with ⟨k, g⟩
      simp only [searchGroups]
      cases hg : searchGroup hand len g with
      | some w' =>
          apply iff_of_false
          · simp
          · intro hall
            obtain ⟨hm, hl, hc⟩ := searchGroup_eq_some hand len g w' hg
            exact hall (k, g) (List.mem_cons_self _ _) w' hm ⟨hl, hc⟩
      | none =>
          rw [ih]
          constructor
          · intro h q hq w hw
            rcases List.mem_cons.1 hq with rfl | hq'
            · exact (searchGroup_eq_none hand len g).1 hg w hw
            · exact h q hq' w hw
          · intro h q hq w hw
            exact h q (List.mem_cons_of_mem _ hq) w hw

/-- Appending a word to its anagram group adds exactly that word to
the index's membership. -/
theorem mem_anagramsUpdate_append (k x : Word) :
    ∀ (m : List (Word × List Word)) (w : Word),
      (∃ p ∈ anagramsUpdate k (· ++ [x]) m, w ∈ p.2) ↔
        (∃ p ∈ m, w ∈ p.2) ∨ w = x := by
  intro m
  induction m with
  | nil => intro w; simp [anagramsUpdate]
  | cons p rest ih =>
      intro w
      rcases p with ⟨k', v⟩
      by_cases hk : k' = k
      · simp only [anagramsUpdate, if_pos hk]
        constructor
        · rintro ⟨q, hq, hw⟩
          rcases List.mem_cons.1 hq with rfl | hq'
          · rcases List.mem_append.1 hw with hw' | hw'
            · exact Or.inl ⟨(k', v), List.mem_cons_self _ _, hw'⟩
            · exact Or.inr (List.mem_singleton.1 hw')
          · exact Or.inl ⟨q, List.mem_cons_of_mem _ hq', hw⟩
        · rintro (⟨q, hq, hw⟩ | hx)
          · rcases List.mem_cons.1 hq with rfl | hq'
            · exact ⟨(k', v ++ [x]), List.mem_cons_self _ _,
                List.mem_append.2 (Or.inl hw)⟩
            · exact ⟨q, List.mem_cons_of_mem _ hq', hw⟩
          · exact ⟨(k', v ++ [x]), List.mem_cons_self _ _,
              List.mem_append.2 (Or.inr (List.mem_singleton.2 hx))⟩
      · simp only [anagramsUpdate, if_neg hk]
        constructor
        · rintro ⟨q, hq, hw⟩
          rcases List.mem_cons.1 hq with rfl | hq'
          · exact Or.inl ⟨(k', v), List.mem_cons_self _ _, hw⟩
          · rcases (ih w).1 ⟨q, hq', hw⟩ with ⟨r, hr, hwr⟩ | hx
            · exact Or.inl ⟨r, List.mem_cons_of_mem _ hr, hwr⟩
            · exact Or.inr hx
        · rintro (⟨q, hq, hw⟩ | hx)
          · rcases List.mem_cons.1 hq with rfl | hq'
            · exact ⟨(k', v), List.mem_cons_self _ _, hw⟩
            · obtain ⟨r, hr, hwr⟩ := (ih w).2 (Or.inl ⟨q, hq', hw⟩)
              exact ⟨r, List.mem_cons_of_mem _ hr, hwr⟩
          · obtain ⟨r, hr, hwr⟩ := (ih w).2 (Or.inr hx)
            exact ⟨r, List.mem_cons_of_mem _ hr, hwr⟩

/-- One constructor step keeps the word list and the anagram index in
membership agreement. -/
theorem wordUtilStep_mem (wu : WordUtil) (line : Word)
    (hinv : ∀ w, w ∈ wu.words ↔ ∃ p ∈ wu.anagrams, w ∈ p.2) :
    ∀ w, w ∈ (wordUtilStep wu line).words ↔
      ∃ p ∈ (wordUtilStep wu line).anagrams, w ∈ p.2 := by
  intro w
  simp only [wordUtilStep]
  split_ifs with hb hl
  · exact hinv w
  all_goals
    simp only [List.mem_append, List.mem_singleton]
    rw [mem_anagramsUpdate_append, hinv w]

/-- The constructed word util keeps the word list and the anagram
index in membership agreement. -/
theorem buildWordUtil_mem (lines : List Word) :
    ∀ w, w ∈ (buildWordUtil lines).words ↔
      ∃ p ∈ (buildWordUtil lines).anagrams, w ∈ p.2 := by
  unfold buildWordUtil
  suffices h : ∀ (ls : List Word) (wu : WordUtil),
      (∀ w, w ∈ wu.words ↔ ∃ p ∈ wu.anagrams, w ∈ p.2) →
      ∀ w, w ∈ (ls.foldl wordUtilStep wu).words ↔
        ∃ p ∈ (ls.foldl wordUtilStep wu).anagrams, w ∈ p.2 by
    exact h lines _ (by intro w; simp)
  intro ls
  induction ls with
  | nil => intro wu h; exact h
  | cons l ls ih => intro wu h; exact ih _ (wordUtilStep_mem wu l h)

/-- C7: on a constructed dictionary, getWordWithLength returns a word
only if its length is the requested one and each of its letter counts
is bounded by the hand's; it returns none exactly when no dictionary
word satisfies both conditions. -/
theorem getWordWithLength_spec (lines : List Word) (hand : Word) (len : Nat) :
    (∀ w, getWordWithLength (buildWordUtil lines) hand len = some w →
        w.length = len ∧ ∀ c, w.count c ≤ hand.count c) ∧
    (getWordWithLength (buildWordUtil lines) hand len = none ↔
      ¬∃ w, w ∈ (buildWordUtil lines).words ∧ w.length = len ∧
        ∀ c, w.count c ≤ hand.count c) := by
  have hinv := buildWordUtil_mem lines
  constructor
  · intro w h
    obtain ⟨-, hl, hc⟩ := searchGroups_eq_some hand len _ w h
    exact ⟨hl, (canMake_iff w hand).1 hc⟩
  · unfold getWordWithLength
    rw [searchGroups_eq_none]
    constructor
    · rintro hall ⟨w, hw, hl, hc⟩
      obtain ⟨p, hp, hwp⟩ := (hinv w).1 hw
      exact hall p hp w hwp ⟨hl, (canMake_iff w hand).2 hc⟩
    · rintro hne p hp w hwp ⟨hl, hc⟩
      exact hne ⟨w, (hinv w).2 ⟨p, hp, hwp⟩, hl, (canMake_iff w hand).1 hc⟩

/-- Witness for the word lookup specification on a concrete lookup. -/
theorem getWordWithLength_spec_witness :
    getWordWithLength (buildWordUtil (["cat"].map String.toList)) "tca".toList 3
      = some "cat".toList ∧
    ("cat".toList.length = 3 ∧ ∀ c, "cat".toList.count c ≤ "tca".toList.count c) :=
  ⟨by decide,
    (getWordWithLength_spec (["cat"].map String.toList) "tca".toList 3).1 _
      (by decide)⟩

-- ============================================================================
-- Claim theorems: oversized hand rejection (C9)
-- ============================================================================

/-- C9: a hand of more than 144 letters makes startSolver fail
immediately, independent of the dictionary, with the board (grid, hand,
word util, undo log) returned unchanged. -/
theorem startSolver_rejects_oversized_hand (b : Board)
    (h : 144 < b.hand.length) : startSolver b = (false, b) := by
  unfold startSolver
  split
  · rfl
  · omega

set_option maxRecDepth 8000 in
/-- Witness for the oversized-hand rejection on a 145-letter hand. -/
theorem startSolver_rejects_oversized_hand_witness :
    144 < (mkBoard [] (List.replicate 145 'a')).hand.length ∧
    startSolver (mkBoard [] (List.replicate 145 'a')) =
      (false, mkBoard [] (List.replicate 145 'a')) :=
  ⟨by decide, startSolver_rejects_oversized_hand _ (by decide)⟩

-- ============================================================================
-- Claim theorems: seed letter is never verified (C10)
-- ============================================================================

/-- C10: insertWord never verifies the pre-existing letter at the seed
cell.  On a grid holding z at (5,5), inserting the word ab horizontally
from column 4 with seed (5,5) succeeds although the word's letter at
the crossing offset is b, and the mismatched z stays in place. -/
theorem insertWord_seed_mismatch_accepted :
    (insertWord
      { mkBoard [] "aaaa".toList with
          grid := gridSet (mkBoard [] "aaaa".toList).grid 5 5 'z' }
      "ab".toList 4 5 true (5, 5)).1 = true ∧
    gridGet ((insertWord
      { mkBoard [] "aaaa".toList with
          grid := gridSet (mkBoard [] "aaaa".toList).grid 5 5 'z' }
      "ab".toList 4 5 true (5, 5)).2).grid 5 5 = some 'z' ∧
    "ab".toList.getD 1 ' ' = 'b' ∧ 'b' ≠ 'z' := by
  decide

-- ============================================================================
-- Termination of the recursive solver (C8)
-- ============================================================================

/-- Inserting a word never touches the hand. -/
theorem insertWord_hand (b : Board) (w : Word) (x y : Int) (o : Bool)
    (s : Int × Int) : ((insertWord b w x y o s).2).hand = b.hand := by
  unfold insertWord
  rcases hs : insertScratch b w x y o s with ⟨ok, g⟩
  cases ok <;> rfl

/-- Removing a word from the word list never touches the hand. -/
theorem removeWordFromWordlist_hand (b : Board) (w : Word) :
    (removeWordFromWordlist b w).hand = b.hand := by
  unfold removeWordFromWordlist
  split <;> rfl

/-- The placement scan never touches the hand. -/
theorem findSpotScan_hand (word : Word) (seed : Char) :
    ∀ (coords : List (Nat × Nat)) (b : Board),
      ((findSpotScan word seed coords b).2).hand = b.hand := by
  intro coords
  induction coords with
  | nil => intro b; rfl
  | cons rc rest ih =>
      intro b
      rcases rc with ⟨row, col⟩
      simp only [findSpotScan]
      cases hcell : gridGet b.grid (row : Int) (col : Int) with
      | none => exact ih b
      | some ch =>
          dsimp only
          split_ifs with hne
          · exact ih b
          · rcases h1 : insertWord b word (col : Int)
                ((row : Int) - wfindInt word seed) false
                ((col : Int), (row : Int)) with ⟨ok1, b1⟩
            have hb1 : b1.hand = b.hand := by
              have h := insertWord_hand b word (col : Int)
                ((row : Int) - wfindInt word seed) false ((col : Int), (row : Int))
              rw [h1] at h
              exact h
            cases ok1
            · dsimp only
              rcases h2 : insertWord b1 word ((col : Int) - wfindInt word seed)
                  (row : Int) true ((col : Int), (row : Int)) with ⟨ok2, b2⟩
              have hb2 : b2.hand = b1.hand := by
                have h := insertWord_hand b1 word ((col : Int) - wfindInt word seed)
                  (row : Int) true ((col : Int), (row : Int))
                rw [h2] at h
                exact h
              cases ok2
              · dsimp only
                rw [ih b2, hb2, hb1]
              · show (removeWordFromWordlist b2 word).hand = b.hand
                rw [removeWordFromWordlist_hand, hb2, hb1]
            · show (removeWordFromWordlist b1 word).hand = b.hand
              rw [removeWordFromWordlist_hand, hb1]

/-- The whole spot search never touches the hand. -/
theorem findSpotForWord_hand (b : Board) (w : Word) (t : Char) :
    ((findSpotForWord b w t).2).hand = b.hand := by
  unfold findSpotForWord
  split_ifs with h1 h2
  · rfl
  · rfl
  · exact findSpotScan_hand w t _ b

/-- Consuming a word's letters never grows the hand. -/
theorem removeWordFromTiles_length_le (word : Word) :
    ∀ tiles : List Char, (removeWordFromTiles tiles word).length ≤ tiles.length := by
  induction word with
  | nil => intro tiles; exact le_rfl
  | cons c rest ih =>
      intro tiles
      have h1 : removeWordFromTiles tiles (c :: rest)
          = removeWordFromTiles (tiles.erase c) rest := rfl
      rw [h1]
      exact le_trans (ih _) (List.length_erase_le c tiles)

/-- Consuming a word whose first letter is present strictly shrinks
the hand. -/
theorem removeWordFromTiles_length_lt (c : Char) (rest : List Char)
    (tiles : List Char) (hc : c ∈ tiles) :
    (removeWordFromTiles tiles (c :: rest)).length < tiles.length := by
  have h1 : removeWordFromTiles tiles (c :: rest)
      = removeWordFromTiles (tiles.erase c) rest := rfl
  rw [h1]
  have h2 := removeWordFromTiles_length_le rest (tiles.erase c)
  have h3 : (tiles.erase c).length + 1 = tiles.length :=
    List.length_erase_add_one hc
  omega

/-- A found index is an occurrence. -/
theorem wfind_mem (t : Char) : ∀ (w : List Char) (i : Nat),
    wfind t w = some i → t ∈ w := by
  intro w
  induction w with
  | nil => intro i h; simp [wfind] at h
  | cons d rest ih =>
      intro i h
      simp only [wfind] at h
      split_ifs at h with hd
      · subst hd
        exact List.mem_cons_self _ _
      · cases ho : wfind t rest with
        | none => rw [ho] at h; simp at h
        | some j => exact List.mem_cons_of_mem _ (ih j ho)

/-- Erasing at the first found index is erasing the first occurrence. -/
theorem wfind_eraseIdx (t : Char) : ∀ (w : List Char) (i : Nat),
    wfind t w = some i → w.eraseIdx i = w.erase t := by
  intro w
  induction w with
  | nil => intro i h; simp [wfind] at h
  | cons d rest ih =>
      intro i h
      simp only [wfind] at h
      split_ifs at h with hd
      · cases h
        subst hd
        simp [List.eraseIdx, List.erase_cons_head]
      · cases ho : wfind t rest with
        | none => rw [ho] at h; simp at h
        | some j =>
            rw [ho] at h
            cases h
            have he : (d :: rest).erase t = d :: rest.erase t := by
              rw [List.erase_cons]
              rw [if_neg (by simp [hd])]
            rw [he]
            simp only [List.eraseIdx]
            rw [ih j ho]

/-- The strict hand decrease performed before each recursive solver
call: the word came from the hand plus one board tile of length at
least 2, the board tile occurs in it and is deleted, and the remaining
letters are all drawn from the hand. -/
theorem solver_hand_decrease (wu : WordUtil) (hand : List Char) (t : Char)
    (wl : Nat) (w : Word) (tp : Nat)
    (hget : getWordWithLength wu (hand ++ [t]) wl = some w)
    (hfind : wfind t w = some tp) (hwl : 2 ≤ wl) :
    (removeWordFromTiles hand (w.eraseIdx tp)).length < hand.length := by
  obtain ⟨-, hlen, hcan⟩ := searchGroups_eq_some (hand ++ [t]) wl wu.anagrams w hget
  have hcnt := (canMake_iff w (hand ++ [t])).1 hcan
  rw [wfind_eraseIdx t w tp hfind]
  have htm : t ∈ w := wfind_mem t w tp hfind
  have hbound : ∀ c, (w.erase t).count c ≤ hand.count c := by
    intro c
    have h1 := hcnt c
    rw [List.count_append] at h1
    by_cases hct : c = t
    · subst hct
      rw [List.count_erase_self]
      have h2 : List.count c [c] = 1 := by simp
      omega
    · rw [List.count_erase_of_ne hct]
      have h2 : List.count c [t] = 0 := by simp [hct]
      omega
  have hne : w.erase t ≠ [] := by
    have h4 : (w.erase t).length + 1 = w.length := List.length_erase_add_one htm
    intro hnil
    rw [hnil] at h4
    simp at h4
    omega
  cases he : w.erase t with
  | nil => exact absurd he hne
  | cons c0 rest =>
      have hc0 : c0 ∈ hand := by
        have h5 := hbound c0
        rw [he] at h5
        have h6 : 0 < (c0 :: rest).count c0 := by simp
        exact List.count_pos_iff.1 (lt_of_lt_of_le h6 h5)
      exact removeWordFromTiles_length_lt c0 rest hand hc0

/-- The tile loop never grows the hand (given the recursive call does
not). -/
theorem tileLoop_hand_le (rec : Board → Bool × Board)
    (hrec : ∀ b, ((rec b).2).hand.length ≤ b.hand.length) (wl : Nat) :
    ∀ (ts : List Char) (b : Board),
      ((tileLoop rec wl ts b).2).hand.length ≤ b.hand.length := by
  intro ts
  induction ts with
  | nil => intro b; exact le_rfl
  | cons t ts ih =>
      intro b
      simp only [tileLoop]
      cases hget : getWordWithLength b.wordUtil (b.hand ++ [t]) wl with
      | none => exact ih b
      | some w =>
          dsimp only
          rcases hfs : findSpotForWord b w t with ⟨okf, b1⟩
          have hb1 : b1.hand = b.hand := by
            have h := findSpotForWord_hand b w t
            rw [hfs] at h
            exact h
          cases okf
          · dsimp only
            exact le_trans (ih b1) (le_of_eq (by rw [hb1]))
          · dsimp only
            cases hw : wfind t w with
            | none => exact le_trans (ih b1) (le_of_eq (by rw [hb1]))
            | some tp =>
                dsimp only
                rcases hr : rec { b1 with
                    hand := removeWordFromTiles b1.hand (w.eraseIdx tp) } with ⟨okr, b3⟩
                have hb3 : b3.hand.length
                    ≤ (removeWordFromTiles b1.hand (w.eraseIdx tp)).length := by
                  have h := hrec { b1 with
                    hand := removeWordFromTiles b1.hand (w.eraseIdx tp) }
                  rw [hr] at h
                  exact h
                have hb2 : (removeWordFromTiles b1.hand (w.eraseIdx tp)).length
                    ≤ b.hand.length := by
                  rw [← hb1]
                  exact removeWordFromTiles_length_le _ _
                cases okr
                · dsimp only
                  split_ifs with hbe
                  · exact le_trans hb3 hb2
                  · exact le_trans (ih b3) (le_trans hb3 hb2)
                · exact le_trans hb3 hb2

/-- The length loop never grows the hand. -/
theorem lenLoop_hand_le (rec : Board → Bool × Board)
    (hrec : ∀ b, ((rec b).2).hand.length ≤ b.hand.length) :
    ∀ (lens : List Nat) (b : Board),
      ((lenLoop rec lens b).2).hand.length ≤ b.hand.length := by
  intro lens
  induction lens with
  | nil => intro b; exact le_rfl
  | cons wl rest ih =>
      intro b
      simp only [lenLoop]
      rcases ht : tileLoop rec wl (getTiles b) b with ⟨okt, b1⟩
      have hb1 : b1.hand.length ≤ b.hand.length := by
        have h := tileLoop_hand_le rec hrec wl (getTiles b) b
        rw [ht] at h
        exact h
      cases okt
      · dsimp only
        exact le_trans (ih b1) hb1
      · exact hb1

/-- The fuelled solver never grows the hand. -/
theorem solverF_hand_le : ∀ (n : Nat) (b : Board),
    ((solverF n b).2).hand.length ≤ b.hand.length := by
  intro n
  induction n with
  | zero => intro b; exact le_rfl
  | succ n ih =>
      intro b
      simp only [solverF]
      exact lenLoop_hand_le (solverF n) ih _ b

/-- Two recursive calls that agree below the hand bound make the tile
loop agree. -/
theorem tileLoop_congr (f g : Board → Bool × Board) (H : Nat)
    (hf : ∀ b, ((f b).2).hand.length ≤ b.hand.length)
    (hfg : ∀ b, b.hand.length < H → f b = g b) (wl : Nat) (hwl : 2 ≤ wl) :
    ∀ (ts : List Char) (b : Board), b.hand.length ≤ H →
      tileLoop f wl ts b = tileLoop g wl ts b := by
  intro ts
  induction ts with
  | nil => intro b _; rfl
  | cons t ts ih =>
      intro b hb
      simp only [tileLoop]
      cases hget : getWordWithLength b.wordUtil (b.hand ++ [t]) wl with
      | none => exact ih b hb
      | some w =>
          dsimp only
          rcases hfs : findSpotForWord b w t with ⟨okf, b1⟩
          have hb1 : b1.hand = b.hand := by
            have h := findSpotForWord_hand b w t
            rw [hfs] at h
            exact h
          cases okf
          · dsimp only
            exact ih b1 (by rw [hb1]; exact hb)
          · dsimp only
            cases hw : wfind t w with
            | none => exact ih b1 (by rw [hb1]; exact hb)
            | some tp =>
                dsimp only
                have hdec : (removeWordFromTiles b1.hand (w.eraseIdx tp)).length
                    < b.hand.length := by
                  rw [hb1]
                  exact solver_hand_decrease b.wordUtil b.hand t wl w tp hget hw hwl
                have hfg2 : f { b1 with
                      hand := removeWordFromTiles b1.hand (w.eraseIdx tp) }
                    = g { b1 with
                      hand := removeWordFromTiles b1.hand (w.eraseIdx tp) } :=
                  hfg _ (lt_of_lt_of_le hdec hb)
                rw [hfg2]
                rcases hr : g { b1 with
                    hand := removeWordFromTiles b1.hand (w.eraseIdx tp) } with ⟨okr, b3⟩
                have hb3 : b3.hand.length ≤ H := by
                  have h := hf { b1 with
                    hand := removeWordFromTiles b1.hand (w.eraseIdx tp) }
                  rw [hfg2, hr] at h
                  exact le_trans h (le_trans (le_of_lt hdec) hb)
                cases okr
                · dsimp only
                  split_ifs with hbe
                  · rfl
                  · exact ih b3 hb3
                · rfl

/-- Two recursive calls that agree below the hand bound make the
length loop agree. -/
theorem lenLoop_congr (f g : Board → Bool × Board) (H : Nat)
    (hf : ∀ b, ((f b).2).hand.length ≤ b.hand.length)
    (hg : ∀ b, ((g b).2).hand.length ≤ b.hand.length)
    (hfg : ∀ b, b.hand.length < H → f b = g b) :
    ∀ lens : List Nat, (∀ wl ∈ lens, 2 ≤ wl) →
      ∀ b : Board, b.hand.length ≤ H → lenLoop f lens b = lenLoop g lens b := by
  intro lens
  induction lens with
  | nil => intro _ b _; rfl
  | cons wl rest ih =>
      intro hlens b hb
      simp only [lenLoop]
      have h2 : 2 ≤ wl := hlens wl (List.mem_cons_self _ _)
      rw [tileLoop_congr f g H hf hfg wl h2 (getTiles b) b hb]
      rcases ht : tileLoop g wl (getTiles b) b with ⟨okt, b1⟩
      have hb1 : b1.hand.length ≤ H := by
        have h := tileLoop_hand_le g hg wl (getTiles b) b
        rw [ht] at h
        exact le_trans h hb
      cases okt
      · dsimp only
        exact ih (fun l hl => hlens l (List.mem_cons_of_mem _ hl)) b1 hb1
      · rfl

/-- Every candidate extension length is at least 2. -/
theorem lensDown_ge_two (top : Nat) : ∀ wl ∈ lensDown top, 2 ≤ wl := by
  intro wl hwl
  unfold lensDown at hwl
  rw [List.mem_reverse] at hwl
  exact (List.mem_range'_1.1 hwl).1

/-- Fuel above the hand size is irrelevant: the recursion of the
solver consumes at least one hand letter per level. -/
theorem solverF_congr (H : Nat) :
    ∀ (b : Board) (n m : Nat), b.hand.length ≤ H → H < n → H < m →
      solverF n b = solverF m b := by
  induction H using Nat.strong_induction_on with
  | _ H ih =>
      intro b n m hb hn hm
      cases n with
      | zero => omega
      | succ n' =>
          cases m with
          | zero => omega
          | succ m' =>
              simp only [solverF]
              refine lenLoop_congr (solverF n') (solverF m') b.hand.length
                (solverF_hand_le n') (solverF_hand_le m') ?_
                (lensDown (b.hand.length + 1)) (lensDown_ge_two _) b le_rfl
              intro b' hb'
              exact ih b'.hand.length (lt_of_lt_of_le hb' hb) b' n' m' le_rfl
                (by omega) (by omega)

/-- C8: the recursive solver terminates with recursion depth bounded
by the hand size: any two fuel amounts exceeding the hand size compute
the same result, so the fuelled model (startSolver runs it with fuel
hand + 1) is the total function the C++ recursion computes. -/
theorem solverF_fuel_irrelevant (b : Board) (n m : Nat)
    (hn : b.hand.length < n) (hm : b.hand.length < m) :
    solverF n b = solverF m b :=
  solverF_congr b.hand.length b n m le_rfl hn hm

/-- Witness for fuel irrelevance at a concrete board and fuels. -/
theorem solverF_fuel_irrelevant_witness :
    (mkBoard (["cat"].map String.toList) "cat".toList).hand.length < 4 ∧
    (mkBoard (["cat"].map String.toList) "cat".toList).hand.length < 5 ∧
    solverF 4 (mkBoard (["cat"].map String.toList) "cat".toList)
      = solverF 5 (mkBoard (["cat"].map String.toList) "cat".toList) :=
  ⟨by decide, by decide, solverF_fuel_irrelevant _ 4 5 (by decide) (by decide)⟩

end Bananagrams
